import Mathlib

/-!
Verification of the Fireproof core: the document store
(src/packages/fireproof/src/fireproof.js) and the incremental secondary-index
engine (the DbIndex module).  Pure JavaScript functions are translated to Lean
functions; the mutable instance state (`this.clock`, the index roots, the
registry, the single-flight promise guard) becomes explicit state passing.

The Merkle-clock engine (prolly.js) and the chunked-tree primitive
(prolly-trees) are external collaborators that are not part of the sources;
they are modelled from the spec where a claim needs them, and each such
definition is marked `Modelled from the spec:`.
-/

namespace Fireproof

/-- Document bodies.  Documents are open field maps in the source; the claims
under study never inspect individual fields, so a body is represented by an
integer. -/
abbrev DocVal := Int

/-- A change event appended to the log: a `{key, value}` put, where a `del`
is committed as a put whose value is absent (`value: null` in `del`,
fireproof.js line 178: the tombstone is a null-valued put). -/
structure Event where
  key : String
  value : Option DocVal
deriving DecidableEq, Repr

/-- Modelled from the spec: the Merkle-clock engine keeps an append-only event
log; a clock is the frontier reached after a number of commits, so with a
single writer a clock is the length of the committed prefix. -/
abbrev Clock := Nat

/-- The document store state: the committed event log together with the
current clock (`this.blocks` plus `this.clock`). -/
structure Store where
  log : List Event
  clock : Clock
deriving DecidableEq, Repr

/-- The last event of `l` whose key is `k`. -/
def lastEventFor (l : List Event) (k : String) : Option Event :=
  (l.filter (fun e => e.key == k)).getLast?

/-- Modelled from the spec: `get(blocks, clock, key) → value | null` resolves
the latest value for the key against the clock; a document whose latest event
carries no value (tombstone, spec section 3: `value absent`) resolves to
nothing. -/
def engineGet (log : List Event) (clock : Clock) (k : String) : Option DocVal :=
  match lastEventFor (log.take clock) k with
  | some e => e.value
  | none => none

/-- The document ids mentioned in a log prefix, first occurrence first. -/
def logKeys (l : List Event) : List String :=
  (l.map Event.key).dedup

/-- Modelled from the spec: `getAll(blocks, clock) → [{key, value}]` returns
one `{key, value}` pair per live document — per spec section 4.1 the
no-argument `changesSince`, which only reshapes this list, is `a full snapshot
of every live document`, and a document whose latest event has an absent value
is deleted, not live. -/
def engineGetAll (log : List Event) (clock : Clock) : List (String × DocVal) :=
  (logKeys (log.take clock)).filterMap
    (fun k => (engineGet log clock k).map (fun v => (k, v)))

/-- Modelled from the spec: `eventsSince(blocks, clock, sinceClock)` returns
the diff between the two clocks, i.e. the events appended after `since` and
visible at `clock`, in log (chronological) order. -/
def eventsSince (log : List Event) (clock since : Clock) : List Event :=
  (log.take clock).drop since

/-- Modelled from the spec: `put(blocks, clock, event) → {head, id} | null`;
the successful engine commit appends the event and advances the head. -/
def enginePut (log : List Event) (clock : Clock) (e : Event) :
    Option (List Event × Clock) :=
  some (log ++ [e], clock + 1)

/-- A row of a `changesSince` result: either `{key, value}` or, for a
tombstone, `{key, del: true}` (no value field). -/
structure Row where
  key : String
  value : Option DocVal := none
  del : Bool := false
deriving DecidableEq, Repr

/-- The row the `changesSince` loop produces for one event: events the engine
reports as type `del` (value absent) give `{key, del: true}`, the others give
`{key, value}` (fireproof.js lines 96-102). -/
def rowOfEvent (e : Event) : Row :=
  match e.value with
  | none => { key := e.key, del := true }
  | some v => { key := e.key, value := some v }

/-- JavaScript `Map.set` semantics on an association list: an existing key is
overwritten in place, a new key is appended. -/
def mapSet [BEq K] (m : List (K × V)) (k : K) (v : V) : List (K × V) :=
  match m with
  | [] => [(k, v)]
  | p :: rest => if p.1 == k then (k, v) :: rest else p :: mapSet rest k v

/-- JavaScript `Map.get` on an association list. -/
def mapFind [BEq K] (m : List (K × V)) (k : K) : Option V :=
  (m.find? (fun p => p.1 == k)).map Prod.snd

/-- The `docsMap` built by `changesSince` from a diff: one entry per key, the
latest event for that key winning (fireproof.js lines 95-102). -/
def buildDocsMap (events : List Event) : List (String × Row) :=
  events.foldl (fun m e => mapSet m e.key (rowOfEvent e)) []

/-- The rows of `changesSince` (fireproof.js lines 90-108): with a prior
event reference, the collapsed diff; without one, the full live snapshot. -/
def changesSinceRows (log : List Event) (clock : Clock) : Option Clock → List Row
  | some s => (buildDocsMap (eventsSince log clock s)).map Prod.snd
  | none => (engineGetAll log clock).map (fun p => { key := p.1, value := some p.2 })

/-- `changesSince` returns `{rows, clock: this.clock}` (fireproof.js line
109). -/
def changesSince (st : Store) (since : Option Clock) : List Row × Clock :=
  (changesSinceRows st.log st.clock since, st.clock)

/-- `#putToProllyTree` (fireproof.js lines 187-201), with the engine commit
outcome passed explicitly.  Output: the returned value or the thrown error,
the store state afterwards, and the list of listener notifications issued
(each notification carries the committed events).  A falsy commit result
throws before `this.clock` is assigned and before listeners are notified. -/
def putToProllyTree (st : Store) (e : Event) (result : Option (List Event × Clock)) :
    Except String (String × Clock) × Store × List (List Event) :=
  match result with
  | none => (Except.error "failed to put at storage layer", st, [])
  | some (log2, head) => (Except.ok (e.key, head), { log := log2, clock := head }, [[e]])

/-- A document-store mutation: `put` stores the body, `del` commits the
null-valued tombstone put (fireproof.js lines 161-179). -/
inductive Op where
  | put (id : String) (v : DocVal)
  | del (id : String)
deriving DecidableEq, Repr

/-- The event an operation commits. -/
def opEvent : Op → Event
  | .put id v => ⟨id, some v⟩
  | .del id => ⟨id, none⟩

/-- The document id an operation touches. -/
def Op.docId : Op → String
  | .put id _ => id
  | .del id => id

/-- One successful operation against the store (the engine commit
succeeds). -/
def applyOp (st : Store) (o : Op) : Store :=
  (putToProllyTree st (opEvent o) (enginePut st.log st.clock (opEvent o))).2.1

/-- The store reached from the empty store by a sequence of operations. -/
def runOps (ops : List Op) : Store :=
  ops.foldl applyOp ⟨[], 0⟩

/-- The value carried by the last operation touching `id`: `some (some v)`
for a final put, `some none` for a final del, `none` when no operation
touched `id`. -/
def lastOpValue (ops : List Op) (id : String) : Option (Option DocVal) :=
  ((ops.filter (fun o => o.docId == id)).getLast?).map (fun o => (opEvent o).value)

/-! ## The composite-key comparator of the index (DbIndex lines 17-31) -/

/-- A JavaScript number as seen by `refCompare`: not-a-number, the two
infinities, or a finite value. -/
inductive JsNum where
  | nan
  | negInf
  | posInf
  | fin (q : Int)
deriving DecidableEq, Repr

/-- `Number.isNaN`. -/
def JsNum.isNaNb : JsNum → Bool
  | .nan => true
  | _ => false

/-- JavaScript `<` on numbers (false whenever either side is NaN). -/
def JsNum.ltb : JsNum → JsNum → Bool
  | .negInf, .posInf => true
  | .negInf, .fin _ => true
  | .fin _, .posInf => true
  | .fin a, .fin b => decide (a < b)
  | _, _ => false

/-- Modelled from the spec: `simpleCompare` of prolly-trees/utils, the
three-way comparison derived from the JavaScript order on numbers. -/
def simpleCompare (a b : JsNum) : Int :=
  if a.ltb b then -1 else if b.ltb a then 1 else 0

/-- `refCompare` (DbIndex lines 25-31): the secondary docId comparison. -/
def refCompare (aRef bRef : JsNum) : Except String Int :=
  if aRef.isNaNb then Except.ok (-1)
  else if bRef.isNaNb then Except.error "ref may not be Infinity or NaN"
  else if aRef == JsNum.posInf then Except.ok 1
  else Except.ok (simpleCompare aRef bRef)

/-- Three-way comparison on encoded primary keys (integers in this model). -/
def simpleCompareInt (a b : Int) : Int :=
  if a < b then -1 else if b < a then 1 else 0

/-- `compare` (DbIndex lines 17-23): primary comparison on the encoded key,
tie-break by `refCompare` on the docId reference. -/
def compareComposite (a b : Int × JsNum) : Except String Int :=
  let comp := simpleCompareInt a.1 b.1
  if comp ≠ 0 then Except.ok comp else refCompare a.2 b.2

/-! ## Claim C2: commit failure leaves the store untouched -/

/-- Claim C2: when the engine commit of a put or a del returns no result,
`#putToProllyTree` surfaces the storage error, the store (in particular its
clock) is exactly what it was before the call, and no listener notification
is issued. -/
theorem commit_failure_preserves_clock (st : Store) (id : String) (v : DocVal) :
    putToProllyTree st ⟨id, some v⟩ none =
      (Except.error "failed to put at storage layer", st, []) ∧
    putToProllyTree st ⟨id, none⟩ none =
      (Except.error "failed to put at storage layer", st, []) ∧
    (putToProllyTree st ⟨id, some v⟩ none).2.1.clock = st.clock ∧
    (putToProllyTree st ⟨id, none⟩ none).2.1.clock = st.clock :=
  ⟨rfl, rfl, rfl, rfl⟩

/-! ## Claim C7: the secondary reference comparison -/

/-- Claim C7, counterexample: the claim says an infinite left reference sorts
after all finite numeric references, but for the negative-infinite reference
`refCompare` answers `-1` (sorts before), not `1`. -/
theorem refCompare_neg_inf_cex :
    refCompare JsNum.negInf (JsNum.fin 0) = Except.ok (-1) ∧
      refCompare JsNum.negInf (JsNum.fin 0) ≠ Except.ok 1 := by
  refine ⟨rfl, fun h => ?_⟩
  rw [show refCompare JsNum.negInf (JsNum.fin 0) = Except.ok (-1) from rfl] at h
  exact absurd (Except.ok.inj h) (by decide)

/-- Claim C7 as amended: a not-a-number left reference sorts before anything;
a numeric left against a not-a-number right fails fast; the positive-infinite
left reference sorts after every finite reference, while the
negative-infinite one sorts before every finite reference. -/
theorem refCompare_amended :
    (∀ b : JsNum, refCompare JsNum.nan b = Except.ok (-1)) ∧
    (∀ a : JsNum, a.isNaNb = false →
      refCompare a JsNum.nan = Except.error "ref may not be Infinity or NaN") ∧
    (∀ q : Int, refCompare JsNum.posInf (JsNum.fin q) = Except.ok 1) ∧
    (∀ q : Int, refCompare JsNum.negInf (JsNum.fin q) = Except.ok (-1)) := by
  refine ⟨fun b => rfl, fun a ha => ?_, fun q => rfl, fun q => rfl⟩
  cases a with
  | nan => simp [JsNum.isNaNb] at ha
  | negInf => rfl
  | posInf => rfl
  | fin q => rfl

/-- Witness for the amended C7 at a concrete input. -/
theorem refCompare_amended_witness :
    refCompare (JsNum.fin 5) JsNum.nan = Except.error "ref may not be Infinity or NaN" :=
  refCompare_amended.2.1 (JsNum.fin 5) rfl

/-! ## Structure of the store reached by a run of operations -/

theorem applyOp_eq (st : Store) (o : Op) :
    applyOp st o = { log := st.log ++ [opEvent o], clock := st.clock + 1 } := rfl

theorem foldl_applyOp (ops : List Op) (st : Store) :
    (ops.foldl applyOp st).log = st.log ++ ops.map opEvent ∧
      (ops.foldl applyOp st).clock = st.clock + ops.length := by
  induction ops generalizing st with
  | nil => simp
  | cons o ops ih =>
    simp only [List.foldl_cons, applyOp_eq]
    have h := ih { log := st.log ++ [opEvent o], clock := st.clock + 1 }
    refine ⟨h.1.trans ?_, h.2.trans ?_⟩
    · simp
    · show st.clock + 1 + ops.length = st.clock + (ops.length + 1)
      exact Nat.succ_add _ _

theorem runOps_log (ops : List Op) : (runOps ops).log = ops.map opEvent := by
  simpa [runOps] using (foldl_applyOp ops ⟨[], 0⟩).1

theorem runOps_clock (ops : List Op) : (runOps ops).clock = ops.length := by
  simpa [runOps] using (foldl_applyOp ops ⟨[], 0⟩).2

theorem opEvent_key (o : Op) : (opEvent o).key = o.docId := by
  cases o <;> rfl

/-- The last event for `id` in a run is the event of the last operation
touching `id`. -/
theorem lastEventFor_runOps (ops : List Op) (id : String) :
    lastEventFor (runOps ops).log id =
      ((ops.filter (fun o => o.docId == id)).getLast?).map opEvent := by
  unfold lastEventFor
  rw [runOps_log, List.filter_map]
  have hp : ((fun e : Event => e.key == id) ∘ opEvent) = fun o : Op => o.docId == id := by
    funext o; simp [Function.comp, opEvent_key]
  rw [hp]
  generalize ops.filter (fun o => o.docId == id) = l
  induction l with
  | nil => rfl
  | cons a l ih =>
    cases l with
    | nil => rfl
    | cons b l => simpa using ih

/-! ## Claim C1: `changesSince` with no prior clock is the live snapshot -/

/-- The rows of `changesSince(null)` on the store reached by `ops`. -/
def snapshotRows (ops : List Op) : List Row :=
  (changesSince (runOps ops) none).1

theorem filterMap_pair_fst {α β : Type} (l : List α) (g : α → Option β) :
    ((l.filterMap (fun k => (g k).map (fun v => (k, v)))).map Prod.fst) =
      l.filter (fun k => (g k).isSome) := by
  induction l with
  | nil => rfl
  | cons a l ih =>
    cases h : g a <;> simp [List.filterMap_cons, h, List.filter_cons, ih]

theorem mem_engineGetAll (log : List Event) (clock : Clock) (p : String × DocVal) :
    p ∈ engineGetAll log clock ↔
      p.1 ∈ logKeys (log.take clock) ∧ engineGet log clock p.1 = some p.2 := by
  simp only [engineGetAll, List.mem_filterMap, Option.map_eq_some']
  constructor
  · rintro ⟨k, hk, v, hv, rfl⟩
    exact ⟨hk, hv⟩
  · rintro ⟨hk, hv⟩
    exact ⟨p.1, hk, p.2, hv, rfl⟩

theorem engineGet_isSome_mem (log : List Event) (clock : Clock) (k : String)
    (h : (engineGet log clock k).isSome = true) : k ∈ logKeys (log.take clock) := by
  unfold engineGet at h
  cases he : lastEventFor (log.take clock) k with
  | none => rw [he] at h; simp at h
  | some e =>
    have hmem : e ∈ (log.take clock).filter (fun e => e.key == k) :=
      List.mem_of_mem_getLast? (by rw [lastEventFor] at he; simp [he])
    have hk : e.key = k := by
      have := List.of_mem_filter hmem
      simpa using this
    have : e ∈ log.take clock := List.mem_of_mem_filter hmem
    have : e.key ∈ (log.take clock).map Event.key := List.mem_map_of_mem _ this
    rw [hk] at this
    simpa [logKeys, List.mem_dedup] using this

/-- A document whose last operation is a del resolves to nothing. -/
theorem engineGet_runOps_del (ops : List Op) (id : String) (o : Op)
    (ho : (ops.filter (fun o => o.docId == id)).getLast? = some o)
    (hov : (opEvent o).value = none) :
    engineGet (runOps ops).log (runOps ops).clock id = none := by
  unfold engineGet
  rw [runOps_clock, runOps_log,
    show ops.length = (ops.map opEvent).length from (List.length_map _ _).symm,
    List.take_length, ← runOps_log ops, lastEventFor_runOps, ho]
  simp [hov]

theorem snapshotRows_eq (ops : List Op) :
    snapshotRows ops =
      (engineGetAll (runOps ops).log (runOps ops).clock).map
        (fun p => { key := p.1, value := some p.2 }) := rfl

/-- Claim C1: with no prior clock, `changesSince` returns exactly one row per
live (non-deleted) document id, each row carrying the document's current
value, and a document whose last operation was a del contributes no row. -/
theorem changesSince_none_snapshot (ops : List Op) (id : String) :
    ((snapshotRows ops).map Row.key).Nodup ∧
    (∀ r ∈ snapshotRows ops,
      r.del = false ∧ r.value = engineGet (runOps ops).log (runOps ops).clock r.key ∧
        r.value.isSome = true) ∧
    ((engineGet (runOps ops).log (runOps ops).clock id).isSome = true ↔
      id ∈ (snapshotRows ops).map Row.key) ∧
    (lastOpValue ops id = some none → id ∉ (snapshotRows ops).map Row.key) := by
  have hkeys : (snapshotRows ops).map Row.key =
      (engineGetAll (runOps ops).log (runOps ops).clock).map Prod.fst := by
    rw [snapshotRows_eq, List.map_map]
    exact List.map_congr_left (fun p _ => rfl)
  have hmemkeys : ∀ k : String,
      k ∈ (snapshotRows ops).map Row.key ↔
        (engineGet (runOps ops).log (runOps ops).clock k).isSome = true := by
    intro k
    rw [hkeys]
    constructor
    · intro hk
      obtain ⟨p, hp, rfl⟩ := List.mem_map.1 hk
      rw [(mem_engineGetAll (runOps ops).log (runOps ops).clock p).1 hp |>.2]
      rfl
    · intro hk
      obtain ⟨v, hv⟩ := Option.isSome_iff_exists.1 hk
      have : (k, v) ∈ engineGetAll (runOps ops).log (runOps ops).clock :=
        (mem_engineGetAll (runOps ops).log (runOps ops).clock (k, v)).2
          ⟨engineGet_isSome_mem (runOps ops).log (runOps ops).clock k hk, hv⟩
      exact List.mem_map_of_mem _ this
  refine ⟨?_, ?_, (hmemkeys id).symm, ?_⟩
  · rw [hkeys]
    unfold engineGetAll
    rw [filterMap_pair_fst]
    exact (List.nodup_dedup _).filter _
  · intro r hr
    obtain ⟨p, hp, rfl⟩ := List.mem_map.1 (by rwa [snapshotRows_eq] at hr)
    have h2 := (mem_engineGetAll (runOps ops).log (runOps ops).clock p).1 hp |>.2
    exact ⟨rfl, by rw [h2], rfl⟩
  · intro hdel hmem
    have hget := (hmemkeys id).1 hmem
    obtain ⟨o, ho, hov⟩ : ∃ o, (ops.filter (fun o => o.docId == id)).getLast? = some o ∧
        (opEvent o).value = none := by
      unfold lastOpValue at hdel
      obtain ⟨o, ho, hv⟩ := Option.map_eq_some'.1 hdel
      exact ⟨o, ho, hv⟩
    rw [engineGet_runOps_del ops id o ho hov] at hget
    simp at hget

/-- Witness for C1: after putting then deleting document `a`, the snapshot
contains no row for `a`. -/
theorem changesSince_none_snapshot_witness :
    "a" ∉ (snapshotRows [Op.put "a" 7, Op.del "a"]).map Row.key :=
  (changesSince_none_snapshot [Op.put "a" 7, Op.del "a"] "a").2.2.2 (by decide)

/-! ## Claim C3: `changesSince` with a prior clock collapses the diff -/

theorem mapFind_mapSet_self {K V : Type} [BEq K] [LawfulBEq K]
    (m : List (K × V)) (k : K) (v : V) : mapFind (mapSet m k v) k = some v := by
  induction m with
  | nil => simp [mapSet, mapFind, List.find?_cons]
  | cons p m ih =>
    cases hp : p.1 == k with
    | true => simp [mapSet, hp, mapFind, List.find?_cons]
    | false => simpa [mapSet, hp, mapFind, List.find?_cons] using ih

theorem mapFind_mapSet_ne {K V : Type} [BEq K] [LawfulBEq K]
    (m : List (K × V)) (k k' : K) (v : V) (h : (k == k') = false) :
    mapFind (mapSet m k v) k' = mapFind m k' := by
  induction m with
  | nil => simp [mapSet, mapFind, List.find?_cons, h]
  | cons p m ih =>
    cases hp : p.1 == k with
    | true =>
      have hp1 : p.1 = k := eq_of_beq hp
      simp [mapSet, hp, mapFind, List.find?_cons, h, hp1]
    | false =>
      cases hpk : p.1 == k' with
      | true => simp [mapSet, hp, mapFind, List.find?_cons, hpk]
      | false => simpa [mapSet, hp, mapFind, List.find?_cons, hpk] using ih

theorem mem_keys_mapSet {K V : Type} [BEq K] [LawfulBEq K]
    (m : List (K × V)) (k x : K) (v : V) :
    x ∈ (mapSet m k v).map Prod.fst ↔ x ∈ m.map Prod.fst ∨ x = k := by
  induction m with
  | nil => simp [mapSet]
  | cons p m ih =>
    cases hp : p.1 == k with
    | true =>
      have hp1 : p.1 = k := eq_of_beq hp
      simp [mapSet, hp, hp1]
      tauto
    | false =>
      simp [mapSet, hp, ih]
      tauto

theorem nodup_keys_mapSet {K V : Type} [BEq K] [LawfulBEq K]
    (m : List (K × V)) (k : K) (v : V) (h : (m.map Prod.fst).Nodup) :
    ((mapSet m k v).map Prod.fst).Nodup := by
  induction m with
  | nil => simp [mapSet]
  | cons p m ih =>
    simp only [List.map_cons, List.nodup_cons] at h
    cases hp : p.1 == k with
    | true =>
      have hp1 : p.1 = k := eq_of_beq hp
      rw [show mapSet (p :: m) k v = (k, v) :: m from by simp [mapSet, hp]]
      simp only [List.map_cons, List.nodup_cons]
      exact ⟨hp1 ▸ h.1, h.2⟩
    | false =>
      simp only [mapSet, hp, Bool.false_eq_true, if_false, List.map_cons, List.nodup_cons]
      refine ⟨fun hx => ?_, ih h.2⟩
      rcases (mem_keys_mapSet m k p.1 v).1 hx with h1 | h1
      · exact h.1 h1
      · rw [h1] at hp
        simp at hp

theorem mem_mapSet {K V : Type} [BEq K]
    (m : List (K × V)) (k : K) (v : V) (p : K × V) (hp : p ∈ mapSet m k v) :
    p ∈ m ∨ p = (k, v) := by
  induction m with
  | nil =>
    simp [mapSet] at hp
    simp [hp]
  | cons q m ih =>
    cases hq : q.1 == k with
    | true =>
      rw [mapSet, hq] at hp
      simp only [if_true] at hp
      rcases List.mem_cons.1 hp with h | h
      · exact Or.inr h
      · exact Or.inl (List.mem_cons_of_mem _ h)
    | false =>
      rw [mapSet, hq] at hp
      simp only [Bool.false_eq_true, if_false] at hp
      rcases List.mem_cons.1 hp with h | h
      · exact Or.inl (h ▸ List.mem_cons_self _ _)
      · rcases ih h with h1 | h1
        · exact Or.inl (List.mem_cons_of_mem _ h1)
        · exact Or.inr h1

theorem mapFind_of_mem {K V : Type} [BEq K] [LawfulBEq K]
    (m : List (K × V)) (p : K × V) (hnd : (m.map Prod.fst).Nodup) (hp : p ∈ m) :
    mapFind m p.1 = some p.2 := by
  induction m with
  | nil => simp at hp
  | cons q m ih =>
    simp only [List.map_cons, List.nodup_cons] at hnd
    rcases List.mem_cons.1 hp with rfl | hp'
    · simp [mapFind, List.find?_cons]
    · have hne : (q.1 == p.1) = false := by
        rw [beq_eq_false_iff_ne]
        intro he
        exact hnd.1 (he ▸ List.mem_map_of_mem Prod.fst hp')
      rw [mapFind, List.find?_cons, hne]
      exact ih hnd.2 hp'

theorem buildDocsMap_concat (es : List Event) (e : Event) :
    buildDocsMap (es ++ [e]) = mapSet (buildDocsMap es) e.key (rowOfEvent e) := by
  simp [buildDocsMap, List.foldl_append]

theorem rowOfEvent_key (e : Event) : (rowOfEvent e).key = e.key := by
  rcases e with ⟨k, v⟩
  cases v <;> rfl

theorem nodup_keys_buildDocsMap (es : List Event) :
    ((buildDocsMap es).map Prod.fst).Nodup := by
  induction es using List.reverseRecOn with
  | nil => simp [buildDocsMap]
  | append_singleton es e ih =>
    rw [buildDocsMap_concat]
    exact nodup_keys_mapSet _ _ _ ih

theorem mem_keys_buildDocsMap (es : List Event) (k : String) :
    k ∈ (buildDocsMap es).map Prod.fst ↔ k ∈ es.map Event.key := by
  induction es using List.reverseRecOn with
  | nil => simp [buildDocsMap]
  | append_singleton es e ih =>
    rw [buildDocsMap_concat]
    rw [mem_keys_mapSet, ih]
    simp

theorem lastEventFor_concat (es : List Event) (e : Event) (k : String) :
    lastEventFor (es ++ [e]) k =
      if e.key == k then some e else lastEventFor es k := by
  unfold lastEventFor
  rw [List.filter_append]
  cases he : e.key == k with
  | true => simp [List.filter_cons, he, List.getLast?_concat]
  | false => simp [List.filter_cons, he]

theorem mapFind_buildDocsMap (es : List Event) (k : String) :
    mapFind (buildDocsMap es) k = (lastEventFor es k).map rowOfEvent := by
  induction es using List.reverseRecOn with
  | nil => simp [buildDocsMap, mapFind, lastEventFor]
  | append_singleton es e ih =>
    rw [buildDocsMap_concat, lastEventFor_concat]
    cases he : e.key == k with
    | true =>
      have hk : e.key = k := eq_of_beq he
      rw [← hk, mapFind_mapSet_self]
      simp
    | false =>
      rw [mapFind_mapSet_ne _ _ _ _ he]
      simp [ih]

theorem row_key_of_mem_buildDocsMap (es : List Event) (p : String × Row)
    (hp : p ∈ buildDocsMap es) : p.2.key = p.1 := by
  induction es using List.reverseRecOn with
  | nil => simp [buildDocsMap] at hp
  | append_singleton es e ih =>
    rw [buildDocsMap_concat] at hp
    rcases mem_mapSet _ _ _ _ hp with h | h
    · exact ih h
    · rw [h]
      exact rowOfEvent_key e

/-- The rows of `changesSince(priorClock)` on the store reached by `ops`. -/
def diffRows (ops : List Op) (s : Clock) : List Row :=
  (changesSince (runOps ops) (some s)).1

/-- The engine diff `changesSince(priorClock)` collapses. -/
def diffEvents (ops : List Op) (s : Clock) : List Event :=
  eventsSince (runOps ops).log (runOps ops).clock s

theorem diffRows_eq (ops : List Op) (s : Clock) :
    diffRows ops s = (buildDocsMap (diffEvents ops s)).map Prod.snd := rfl

/-- Claim C3: with a prior clock, `changesSince` returns exactly one row per
document id changed since that clock; each row is the row of the most recent
change for its id, so tombstones carry `del: true` and puts carry the
value. -/
theorem changesSince_prior_rows (ops : List Op) (s : Clock) :
    ((diffRows ops s).map Row.key).Nodup ∧
    (∀ k : String,
      k ∈ (diffRows ops s).map Row.key ↔ k ∈ (diffEvents ops s).map Event.key) ∧
    (∀ r ∈ diffRows ops s,
      ∃ e : Event, lastEventFor (diffEvents ops s) r.key = some e ∧ r = rowOfEvent e) := by
  have hmapkey : (diffRows ops s).map Row.key =
      (buildDocsMap (diffEvents ops s)).map Prod.fst := by
    rw [diffRows_eq, List.map_map]
    exact List.map_congr_left (fun p hp => row_key_of_mem_buildDocsMap _ p hp)
  refine ⟨?_, ?_, ?_⟩
  · rw [hmapkey]
    exact nodup_keys_buildDocsMap _
  · intro k
    rw [hmapkey]
    exact mem_keys_buildDocsMap _ k
  · intro r hr
    rw [diffRows_eq] at hr
    obtain ⟨p, hp, rfl⟩ := List.mem_map.1 hr
    have hfind : mapFind (buildDocsMap (diffEvents ops s)) p.1 = some p.2 :=
      mapFind_of_mem _ p (nodup_keys_buildDocsMap _) hp
    rw [mapFind_buildDocsMap] at hfind
    obtain ⟨e, he, hre⟩ := Option.map_eq_some'.1 hfind
    refine ⟨e, ?_, hre.symm⟩
    rw [row_key_of_mem_buildDocsMap _ p hp, he]

/-- Witness for C3: after a put of `a` followed by a del of `a`, the diff
since the empty clock contains the single tombstone row for `a`, and that row
is the row of the most recent change. -/
theorem changesSince_prior_rows_witness :
    ∃ e : Event,
      lastEventFor (diffEvents [Op.put "a" 1, Op.del "a"] 0) (Row.mk "a" none true).key =
        some e ∧ (Row.mk "a" none true) = rowOfEvent e :=
  (changesSince_prior_rows [Op.put "a" 1, Op.del "a"] 0).2.2 ⟨"a", none, true⟩ (by decide)

/-! ## The index engine (the DbIndex module)

The chunked ordered tree of prolly-trees is an external collaborator; a tree
is modelled from the spec as the association list of its entries, and a
content identifier is identified with the content it addresses (hashing is
treated as injective, which is the point of content addressing). -/

/-- Encoded emitted keys.  Modelled from the spec: `charwise` is an
order-preserving injective encoding of the emitted key; with integer emitted
keys the encoding is represented by the identity. -/
abbrev EncKey := Int

/-- A composite index key `[charwise.encode(k), docId]`. -/
abbrev CompKey := EncKey × String

/-- Emitted row values. -/
abbrev RowVal := Int

/-- `charwise.encode` on emitted keys (see `EncKey`). -/
def charwiseEncode (k : EncKey) : EncKey := k

/-- A document as handed to the map function: `makeDoc` merges the id back
into the body (`{_id: key, ...value}`, DbIndex line 36). -/
abbrev Doc := String × DocVal

/-- `makeDoc` (DbIndex line 36). -/
def makeDoc (key : String) (value : DocVal) : Doc := (key, value)

/-- A map function: zero or more `emit(k, v)` calls per document; `none`
stands for a JavaScript `undefined` key or value. -/
abbrev MapFn := Doc → List (Option EncKey × Option RowVal)

/-- The body of the `emit` callback (DbIndex lines 69-75): an emission with
an undefined (`none`) value or key is dropped (the value is tested first in
the source), the rest are pushed as composite-keyed entries. -/
def emitStep (ck : String) (acc2 : List (CompKey × RowVal))
    (kv : Option EncKey × Option RowVal) : List (CompKey × RowVal) :=
  match kv.2, kv.1 with
  | some w, some k => acc2 ++ [((charwiseEncode k, ck), w)]
  | _, _ => acc2

/-- The body of the `changes.forEach` loop (DbIndex lines 67-76): a row that
is deleted or carries no value is skipped before the map function is invoked;
otherwise the map function runs over the reconstructed document and its
emissions are pushed through `emitStep`. -/
def changeStep (mapFn : MapFn) (acc : List (CompKey × RowVal)) (c : Row) :
    List (CompKey × RowVal) :=
  match c.del, c.value with
  | false, some v => (mapFn (makeDoc c.key v)).foldl (emitStep c.key) acc
  | _, _ => acc

/-- `indexEntriesForChanges` (DbIndex lines 65-78). -/
def indexEntriesForChanges (changes : List Row) (mapFn : MapFn) :
    List (CompKey × RowVal) :=
  changes.foldl (changeStep mapFn) []

/-- The defined emissions kept out of one emission list (spec side of claim
C10). -/
def emitSel (ck : String) (kv : Option EncKey × Option RowVal) :
    Option (CompKey × RowVal) :=
  match kv.2, kv.1 with
  | some w, some k => some ((charwiseEncode k, ck), w)
  | _, _ => none

/-- The entries one changed row contributes (spec side of claim C10): none
for a deleted or value-less row, the defined emissions otherwise. -/
def specContrib (mapFn : MapFn) (c : Row) : List (CompKey × RowVal) :=
  match c.del, c.value with
  | false, some v => (mapFn (makeDoc c.key v)).filterMap (emitSel c.key)
  | _, _ => []

/-- The spec-side restatement for claim C10: the entries are the defined
emissions of the map function over exactly the live changed rows. -/
def indexEntriesSpec (changes : List Row) (mapFn : MapFn) :
    List (CompKey × RowVal) :=
  changes.flatMap (specContrib mapFn)

/-- One of the two persistent index structures: the in-memory root (`root`,
a loaded tree) and the persisted root reference (`cid`); a content identifier
is represented by the entry list it addresses. -/
structure IndexRef (K V : Type) where
  root : Option (List (K × V)) := none
  cid : Option (List (K × V)) := none
deriving DecidableEq, Repr

/-- A bulk mutation handed to the tree: `{key, value}` or `{key, del: true}`. -/
inductive BulkEntry (K V : Type) where
  | put (k : K) (v : V)
  | del (k : K)
deriving DecidableEq, Repr

/-- Modelled from the spec: `root.bulk(entries)` applies deletions and
upserts to the ordered tree. -/
def bulkApply {K V : Type} [BEq K] (m : List (K × V)) (es : List (BulkEntry K V)) :
    List (K × V) :=
  es.foldl (fun acc e =>
    match e with
    | .del k => acc.filter (fun p => !(p.1 == k))
    | .put k v => mapSet acc k v) m

/-- `loadIndex` (DbIndex lines 296-304): materialize the root from its
persisted content identifier when not already loaded. -/
def loadIndex {K V : Type} (idx : IndexRef K V) : IndexRef K V :=
  match idx.root with
  | some _ => idx
  | none =>
    match idx.cid with
    | none => idx
    | some c => { idx with root := some c }

/-- `bulkIndex` (DbIndex lines 267-294): no-op on an empty entry list;
otherwise create the tree from the entries (no root, no cid), or load and
bulk-update, returning the new root and its content identifier. -/
def bulkIndex {K V : Type} [BEq K] (idx : IndexRef K V)
    (entries : List (BulkEntry K V)) : IndexRef K V :=
  if entries.isEmpty then idx
  else
    let base : List (K × V) :=
      match idx.root with
      | some r => r
      | none =>
        match idx.cid with
        | some c => c
        | none => []
    let content := bulkApply base entries
    { root := some content, cid := some content }

/-- Modelled from the spec: `root.getMany(keys)` looks the changed docIds up
in the id-index, returning the previous composite keys of the ids that are
present. -/
def getMany {K V : Type} [BEq K] (m : List (K × V)) (keys : List K) : List V :=
  keys.filterMap (fun k => mapFind m k)

/-- The mutable state of a `DbIndex` instance: the optional live map
function, its stored source text, the two index references and the document
clock the index was last built from. -/
structure DbIndexState where
  mapFn : Option MapFn := none
  mapFnString : String := ""
  indexById : IndexRef String CompKey := {}
  indexByKey : IndexRef CompKey RowVal := {}
  dbHead : Option Clock := none

/-- The fixed part of the missing-map-function error (DbIndex line 246). -/
def missingMapFnBase : String :=
  "No live map function installed for index, cannot update. Make sure your index definition runs before any queries."

/-- The missing-map-function error message: the stored source text is echoed
when one is present (string truthiness in the source). -/
def missingMapFnMsg (s : String) : String :=
  if s = "" then missingMapFnBase
  else (missingMapFnBase ++ " Your code should match the stored map function source:\n") ++ s

/-- The failure of `this.indexById.root.getMany(...)` when the root is null
(DbIndex line 241 with a prior dbHead but no loadable id-index root). -/
def nullRootMsg : String :=
  "TypeError: Cannot read properties of null (reading getMany)"

/-- The tail of `innerUpdateIndex` after the removal sets are built (DbIndex
lines 245-253): the missing-map-function check, then the batched bulk
mutations and the dbHead advance. -/
def updateWith (idx : DbIndexState) (rows : List Row) (clk : Clock)
    (oldEntries : List (BulkEntry CompKey RowVal))
    (removeById : List (BulkEntry String CompKey))
    (byId0 : IndexRef String CompKey) (byKey0 : IndexRef CompKey RowVal) :
    Except String Unit × DbIndexState :=
  match idx.mapFn with
  | none =>
    (Except.error (missingMapFnMsg idx.mapFnString),
      { idx with indexById := byId0, indexByKey := byKey0 })
  | some f =>
    let indexEntries := indexEntriesForChanges rows f
    let byIdIndexEntries := indexEntries.map (fun e => BulkEntry.put e.1.2 e.1)
    let newById := bulkIndex byId0 (removeById ++ byIdIndexEntries)
    let newByKey := bulkIndex byKey0
      (oldEntries ++ indexEntries.map (fun e => BulkEntry.put e.1 e.2))
    (Except.ok (),
      { idx with indexById := newById, indexByKey := newByKey, dbHead := some clk })

/-- `innerUpdateIndex` (DbIndex lines 212-257): fetch the changes since
`dbHead`; with no changes record the current clock and return; otherwise
load the roots, build the removal sets from the id-index when a prior
`dbHead` existed, and continue with `updateWith`.  The returned state is the
instance state after the call, also on the error paths (the loads mutate the
instance; nothing else does before the throw). -/
def innerUpdateIndex (db : Store) (idx : DbIndexState) :
    Except String Unit × DbIndexState :=
  let res := changesSince db idx.dbHead
  if res.1.isEmpty then (Except.ok (), { idx with dbHead := some res.2 })
  else
    let byId0 := loadIndex idx.indexById
    let byKey0 := loadIndex idx.indexByKey
    match idx.dbHead with
    | some _ =>
      match byId0.root with
      | none =>
        (Except.error nullRootMsg,
          { idx with indexById := byId0, indexByKey := byKey0 })
      | some m =>
        let oldKeys := getMany m (res.1.map Row.key)
        updateWith idx res.1 res.2 (oldKeys.map (fun k => BulkEntry.del k))
          (oldKeys.map (fun k => BulkEntry.del k.2)) byId0 byKey0
    | none => updateWith idx res.1 res.2 [] [] byId0 byKey0

/-! ## The query path (DbIndex lines 179-195 and 306-324) -/

/-- A query: at most one of `range` and `key`, plus an optional limit. -/
structure IdxQuery where
  range : Option (EncKey × EncKey) := none
  key : Option EncKey := none
  limit : Option Nat := none
deriving DecidableEq, Repr

/-- A formatted query result row `{id, key, row}` as the db-index tree
returns it. -/
structure QueryRow where
  id : String
  key : EncKey
  row : RowVal
deriving DecidableEq, Repr

/-- The `{id: key[1], key: key[0], row: value}` reshaping of a raw entry. -/
def fmtEntry (p : CompKey × RowVal) : QueryRow :=
  { id := p.1.2, key := p.1.1, row := p.2 }

/-- Modelled from the spec: `root.range(start, end)` returns the formatted
entries whose encoded key lies in the inclusive range. -/
def rootRange (m : List (CompKey × RowVal)) (lo hi : EncKey) : List QueryRow :=
  (m.filter (fun p => decide (lo ≤ p.1.1) && decide (p.1.1 ≤ hi))).map fmtEntry

/-- Modelled from the spec: `root.get(encodedKey)` returns the formatted
entries with that exact encoded key. -/
def rootGetEntries (m : List (CompKey × RowVal)) (k : EncKey) : List QueryRow :=
  (m.filter (fun p => p.1.1 == k)).map fmtEntry

/-- `applyLimit` (DbIndex lines 306-309): `slice(0, limit)`, the whole list
when no limit is given. -/
def applyLimit {α : Type} (results : List α) (limit : Option Nat) : List α :=
  match limit with
  | none => results
  | some n => results.take n

/-- `doIndexQuery` (DbIndex lines 311-324).  `query.key` is tested for
truthiness in the source, so the encoded-integer key `0` falls through to the
scan branch; the key branch never applies the limit. -/
def doIndexQuery (idx : IndexRef CompKey RowVal) (q : IdxQuery) : List QueryRow :=
  match (loadIndex idx).root with
  | none => []
  | some m =>
    match q.range with
    | some (lo, hi) => applyLimit (rootRange m (charwiseEncode lo) (charwiseEncode hi)) q.limit
    | none =>
      match q.key with
      | some k =>
        if k == 0 then applyLimit (m.map fmtEntry) q.limit
        else rootGetEntries m (charwiseEncode k)
      | none => applyLimit (m.map fmtEntry) q.limit

/-- `query` (DbIndex lines 179-195): update the index first when `update`
is set (sequentially, `updateIndex` runs `innerUpdateIndex`), then run the
query against the key index; an update failure propagates to the caller.
The decode step is the identity here and the proof artifact is omitted —
neither is observed by the claims. -/
def queryOp (db : Store) (idx : DbIndexState) (q : IdxQuery) (update : Bool) :
    Except String (DbIndexState × List QueryRow) :=
  let r := if update then innerUpdateIndex db idx else (Except.ok (), idx)
  match r.1 with
  | Except.error e => Except.error e
  | Except.ok () => Except.ok (r.2, doIndexQuery r.2.indexByKey q)

/-! ## The per-database index registry (DbIndex lines 132-150) -/

/-- The registry owned by a document store: map-function source text to
index instance, with JavaScript `Map` semantics. -/
abbrev Registry := List (String × DbIndexState)

/-- `database.indexes.get`. -/
def regGet (reg : Registry) (k : String) : Option DbIndexState :=
  mapFind reg k

/-- The merge performed on registration: `keep` keeps its map function and
name but takes `src`'s persisted dbHead and root content identifiers
(only the cids are transferred, the loaded roots are untouched). -/
def mergeRefs (keep src : DbIndexState) : DbIndexState :=
  { keep with
    dbHead := src.dbHead
    indexById := { keep.indexById with cid := src.indexById.cid }
    indexByKey := { keep.indexByKey with cid := src.indexByKey.cid } }

/-- `registerWithDatabase` (DbIndex lines 132-150): a new source text is
inserted; otherwise the instance holding a live map function survives and
absorbs the other instance's persisted references. -/
def registerWithDatabase (inIdx : DbIndexState) (reg : Registry) : Registry :=
  match regGet reg inIdx.mapFnString with
  | none => mapSet reg inIdx.mapFnString inIdx
  | some existing =>
    if existing.mapFn.isSome then
      mapSet reg inIdx.mapFnString (mergeRefs existing inIdx)
    else
      mapSet reg inIdx.mapFnString (mergeRefs inIdx existing)

/-! ## The single-flight update guard (DbIndex lines 203-210) -/

/-- An interaction with `updateIndex`: a caller arrives, or the in-progress
update settles (the `finally` clears the guard). -/
inductive UAct where
  | call
  | complete
deriving DecidableEq, Repr

/-- The promise-level state of one index instance: the guard
`updateIndexPromise` (a promise is represented by a numeric identity),
a fresh-promise counter, the recomputation passes started, and the promise
each caller received. -/
structure UState where
  pending : Option Nat
  nextId : Nat
  started : List Nat
  returns : List Nat
deriving DecidableEq, Repr

/-- One step of `updateIndex`: a call returns the in-progress promise when
the guard is set, otherwise starts one recomputation pass and stores its
promise in the guard; completion clears the guard. -/
def ustep (st : UState) : UAct → UState
  | .call =>
    match st.pending with
    | some p => { st with returns := st.returns ++ [p] }
    | none =>
      { pending := some st.nextId
        nextId := st.nextId + 1
        started := st.started ++ [st.nextId]
        returns := st.returns ++ [st.nextId] }
  | .complete => { st with pending := none }

/-- A run of `updateIndex` interactions from the idle instance. -/
def runUpdateCalls (acts : List UAct) : UState :=
  acts.foldl ustep { pending := none, nextId := 0, started := [], returns := [] }

/-! ## Claim C10: the treatment of changes by `indexEntriesForChanges` -/

theorem emit_foldl_eq (ems : List (Option EncKey × Option RowVal)) (ck : String)
    (acc : List (CompKey × RowVal)) :
    ems.foldl (emitStep ck) acc = acc ++ ems.filterMap (emitSel ck) := by
  induction ems generalizing acc with
  | nil => simp
  | cons kv ems ih =>
    rcases kv with ⟨k1, w2⟩
    cases w2 <;> cases k1 <;>
      simp [emitStep, emitSel, List.filterMap_cons, ih, List.append_assoc]

theorem changeStep_eq (f : MapFn) (acc : List (CompKey × RowVal)) (c : Row) :
    changeStep f acc c = acc ++ specContrib f c := by
  rcases c with ⟨ck, cv, cdel⟩
  cases cdel <;> cases cv <;> simp [changeStep, specContrib, emit_foldl_eq]

theorem indexEntriesForChanges_acc (changes : List Row) (f : MapFn)
    (acc : List (CompKey × RowVal)) :
    changes.foldl (changeStep f) acc = acc ++ indexEntriesSpec changes f := by
  induction changes generalizing acc with
  | nil => simp [indexEntriesSpec]
  | cons c changes ih =>
    rw [List.foldl_cons, changeStep_eq, ih]
    simp [indexEntriesSpec, List.append_assoc]

theorem indexEntriesSpec_congr (changes : List Row) (f g : MapFn)
    (h : ∀ c ∈ changes, c.del = false → ∀ v, c.value = some v →
      f (makeDoc c.key v) = g (makeDoc c.key v)) :
    indexEntriesSpec changes f = indexEntriesSpec changes g := by
  induction changes with
  | nil => rfl
  | cons c changes ih =>
    have h2 := ih (fun c hc => h c (List.mem_cons_of_mem _ hc))
    simp only [indexEntriesSpec, List.flatMap_cons] at h2 ⊢
    rw [h2]
    congr 1
    rcases c with ⟨ck, cv, cdel⟩
    cases cdel with
    | true => rfl
    | false =>
      cases cv with
      | none => rfl
      | some v =>
        simp only [specContrib]
        rw [h ⟨ck, some v, false⟩ (List.mem_cons_self _ _) rfl v rfl]

/-- Claim C10: `indexEntriesForChanges` equals the spec-side description —
only live changed rows reach the map function (so the result depends on the
map function only through its values on those documents) and emissions with
an undefined key or value contribute no entry. -/
theorem indexEntries_changes_spec (changes : List Row) (f : MapFn) :
    indexEntriesForChanges changes f = indexEntriesSpec changes f ∧
    (∀ g : MapFn,
      (∀ c ∈ changes, c.del = false → ∀ v, c.value = some v →
        f (makeDoc c.key v) = g (makeDoc c.key v)) →
      indexEntriesForChanges changes f = indexEntriesForChanges changes g) := by
  have h1 : ∀ fn : MapFn, indexEntriesForChanges changes fn = indexEntriesSpec changes fn := by
    intro fn
    have := indexEntriesForChanges_acc changes fn []
    simpa [indexEntriesForChanges] using this
  refine ⟨h1 f, fun g hfg => ?_⟩
  rw [h1 f, h1 g]
  exact indexEntriesSpec_congr changes f g hfg

/-- A map function emitting the document body as both key and value. -/
def mapFnEmitBody : MapFn := fun d => [(some d.2, some d.2)]

/-- The same map function, altered only on documents with id `b`. -/
def mapFnEmitBodySkipB : MapFn :=
  fun d => if d.1 = "b" then [] else [(some d.2, some d.2)]

/-- Witness for C10: the deleted row `b` never reaches the map function, so
two map functions differing only on `b` produce the same entries. -/
theorem indexEntries_changes_spec_witness :
    indexEntriesForChanges [⟨"a", some 1, false⟩, ⟨"b", none, true⟩] mapFnEmitBody =
      indexEntriesForChanges [⟨"a", some 1, false⟩, ⟨"b", none, true⟩] mapFnEmitBodySkipB :=
  (indexEntries_changes_spec [⟨"a", some 1, false⟩, ⟨"b", none, true⟩] mapFnEmitBody).2
    mapFnEmitBodySkipB (by
      intro c hc hdel v hv
      simp only [List.mem_cons, List.mem_singleton] at hc
      rcases hc with rfl | hc
      · simp only [Row.value, Option.some.injEq] at hv
        subst hv
        decide
      · rcases hc with rfl | hc
        · simp [Row.del] at hdel
        · simp at hc)

/-! ## Claim C9: single-flight update coalescing -/

theorem ustep_attach (m : Nat) (st : UState) (p : Nat) (hp : st.pending = some p) :
    (List.replicate m UAct.call).foldl ustep st =
      { st with returns := st.returns ++ List.replicate m p } := by
  induction m generalizing st with
  | zero => simp
  | succ m ih =>
    rw [List.replicate_succ, List.foldl_cons]
    have h1 : ustep st UAct.call = { st with returns := st.returns ++ [p] } := by
      unfold ustep
      rw [hp]
    rw [h1, ih { st with returns := st.returns ++ [p] } hp]
    simp [List.replicate_succ, List.append_assoc]

/-- Claim C9: any number of `updateIndex` calls arriving while an update is
in progress start exactly one recomputation pass, and every caller receives
the same promise (hence observes the same outcome and resulting dbHead). -/
theorem updateIndex_single_flight (k : Nat) :
    (runUpdateCalls (List.replicate (k + 1) UAct.call)).started = [0] ∧
    (runUpdateCalls (List.replicate (k + 1) UAct.call)).returns =
      List.replicate (k + 1) 0 := by
  unfold runUpdateCalls
  rw [List.replicate_succ, List.foldl_cons]
  have h1 : ustep { pending := none, nextId := 0, started := [], returns := [] }
      UAct.call = { pending := some 0, nextId := 1, started := [0], returns := [0] } := rfl
  rw [h1, ustep_attach k _ 0 rfl]
  refine ⟨rfl, ?_⟩
  show [0] ++ List.replicate k 0 = List.replicate (k + 1) 0
  simp [List.replicate_succ]

/-! ## Claim C8: the result limit -/

/-- Claim C8 as amended: for range and scan queries the limit truncates the
result after retrieval (the limited result is the prefix of the unlimited
one); for key queries (with a truthy key) the limit is ignored. -/
theorem query_limit_amended (idx : IndexRef CompKey RowVal) (lo hi kq : EncKey) (n : Nat) :
    doIndexQuery idx { range := some (lo, hi), limit := some n } =
      (doIndexQuery idx { range := some (lo, hi) }).take n ∧
    doIndexQuery idx { limit := some n } = (doIndexQuery idx {}).take n ∧
    (kq ≠ 0 → doIndexQuery idx { key := some kq, limit := some n } =
      doIndexQuery idx { key := some kq }) := by
  unfold doIndexQuery
  cases (loadIndex idx).root with
  | none => refine ⟨?_, ?_, fun _ => ?_⟩ <;> simp
  | some m =>
    refine ⟨?_, ?_, fun hk => ?_⟩
    · simp [applyLimit]
    · simp [applyLimit]
    · show (if (kq == 0) = true then applyLimit (m.map fmtEntry) (some n)
          else rootGetEntries m (charwiseEncode kq)) =
        (if (kq == 0) = true then applyLimit (m.map fmtEntry) none
          else rootGetEntries m (charwiseEncode kq))
      rw [show (kq == 0) = false from beq_eq_false_iff_ne.2 hk]
      simp

/-- A key index with two entries sharing the encoded key `5`. -/
def idxLimitCex : IndexRef CompKey RowVal :=
  { root := some [((5, "a"), 1), ((5, "b"), 2)] }

/-- Claim C8, counterexample: a key query with limit 1 returns both matching
rows — the limit is not applied on the key branch, so the result is not the
one-row prefix of the unlimited result. -/
theorem query_limit_key_cex :
    doIndexQuery idxLimitCex { key := some 5, limit := some 1 } ≠
      (doIndexQuery idxLimitCex { key := some 5 }).take 1 := by
  decide

/-- Witness for the amended C8 at a concrete index and key. -/
theorem query_limit_amended_witness :
    doIndexQuery idxLimitCex { key := some 5, limit := some 1 } =
      doIndexQuery idxLimitCex { key := some 5 } :=
  (query_limit_amended idxLimitCex 0 0 5 1).2.2 (by decide)

/-! ## Claim C4: `updateIndex` is idempotent without intervening mutations -/

theorem changesSinceRows_self (log : List Event) (clock : Clock) :
    changesSinceRows log clock (some clock) = [] := by
  show (buildDocsMap (eventsSince log clock clock)).map Prod.snd = []
  unfold eventsSince
  rw [List.drop_eq_nil_of_le (List.length_take_le _ _)]
  rfl

/-- Every successful `innerUpdateIndex` records the store's current clock as
the new `dbHead`. -/
theorem innerUpdateIndex_ok_dbHead (db : Store) (idx idx2 : DbIndexState)
    (h : innerUpdateIndex db idx = (Except.ok (), idx2)) :
    idx2.dbHead = some db.clock := by
  unfold innerUpdateIndex updateWith at h
  by_cases hc : (changesSince db idx.dbHead).1.isEmpty = true
  · rw [if_pos hc] at h
    simp only [Prod.mk.injEq] at h
    rw [← h.2]
    rfl
  · rw [if_neg hc] at h
    cases hd : idx.dbHead with
    | none =>
      rw [hd] at h
      dsimp only at h
      cases hf : idx.mapFn with
      | none =>
        rw [hf] at h
        simp at h
      | some f =>
        rw [hf] at h
        simp only [Prod.mk.injEq] at h
        rw [← h.2]
        rfl
    | some c =>
      rw [hd] at h
      dsimp only at h
      cases hr : (loadIndex idx.indexById).root with
      | none =>
        rw [hr] at h
        simp at h
      | some m =>
        rw [hr] at h
        dsimp only at h
        cases hf : idx.mapFn with
        | none =>
          rw [hf] at h
          simp at h
        | some f =>
          rw [hf] at h
          simp only [Prod.mk.injEq] at h
          rw [← h.2]
          rfl

/-- Claim C4: when `changesSince` reports no changes, `updateIndex` records
the store's current clock as the new `dbHead` and leaves the index content
untouched; hence a second `updateIndex` with no intervening document-store
mutation returns the state of the first unchanged (both index roots and
`dbHead` included). -/
theorem updateIndex_idempotent (db : Store) :
    (∀ idx : DbIndexState, (changesSince db idx.dbHead).1 = [] →
      innerUpdateIndex db idx = (Except.ok (), { idx with dbHead := some db.clock })) ∧
    (∀ idx idx2 : DbIndexState, innerUpdateIndex db idx = (Except.ok (), idx2) →
      innerUpdateIndex db idx2 = (Except.ok (), idx2)) := by
  have hpart1 : ∀ idx : DbIndexState, (changesSince db idx.dbHead).1 = [] →
      innerUpdateIndex db idx = (Except.ok (), { idx with dbHead := some db.clock }) := by
    intro idx hrows
    unfold innerUpdateIndex
    rw [if_pos (List.isEmpty_iff.2 hrows)]
    rfl
  refine ⟨hpart1, fun idx idx2 h => ?_⟩
  have hd := innerUpdateIndex_ok_dbHead db idx idx2 h
  have hrows2 : (changesSince db idx2.dbHead).1 = [] := by
    rw [hd]
    exact changesSinceRows_self db.log db.clock
  rw [hpart1 idx2 hrows2]
  rw [← hd]

/-- The map function used by the C4 witness. -/
def mapFnC4 : MapFn := fun d => [(some d.2, some d.2)]

/-- The C4 witness store: one put document. -/
def dbC4 : Store := runOps [Op.put "a" 1]

/-- The C4 witness index before any update. -/
def idxC4 : DbIndexState := { mapFn := some mapFnC4, mapFnString := "mapFnC4" }

/-- The C4 witness index after the first update. -/
def idxC4After : DbIndexState := (innerUpdateIndex dbC4 idxC4).2

/-- Witness for C4: a second update on the concrete store leaves the state of
the first update unchanged. -/
theorem updateIndex_idempotent_witness :
    innerUpdateIndex dbC4 idxC4After = (Except.ok (), idxC4After) :=
  (updateIndex_idempotent dbC4).2 idxC4 idxC4After rfl

/-! ## Claim C5: updating with pending changes and no live map function -/

theorem loadIndex_cid {K V : Type} (i : IndexRef K V) : (loadIndex i).cid = i.cid := by
  rcases i with ⟨root, cid⟩
  cases root <;> cases cid <;> rfl

/-- Claim C5 as amended: with pending changes, no live map function, and a
loadable id-index root whenever a prior `dbHead` exists, the update fails
with the missing-map-function error, whose message ends in the stored source
text when one is present; `dbHead` and the persisted root references are
untouched, and the same error surfaces through `query` with `update` set. -/
theorem missing_mapFn_fatal (db : Store) (idx : DbIndexState) (q : IdxQuery)
    (hrows : (changesSince db idx.dbHead).1 ≠ [])
    (hfn : idx.mapFn = none)
    (hroot : idx.dbHead.isSome = true → ((loadIndex idx.indexById).root).isSome = true) :
    (innerUpdateIndex db idx).1 = Except.error (missingMapFnMsg idx.mapFnString) ∧
    (innerUpdateIndex db idx).2.dbHead = idx.dbHead ∧
    (innerUpdateIndex db idx).2.indexById.cid = idx.indexById.cid ∧
    (innerUpdateIndex db idx).2.indexByKey.cid = idx.indexByKey.cid ∧
    (idx.mapFnString ≠ "" →
      missingMapFnMsg idx.mapFnString =
        (missingMapFnBase ++ " Your code should match the stored map function source:\n") ++
          idx.mapFnString) ∧
    queryOp db idx q true = Except.error (missingMapFnMsg idx.mapFnString) := by
  have hmain : innerUpdateIndex db idx =
      (Except.error (missingMapFnMsg idx.mapFnString),
        { idx with
          indexById := loadIndex idx.indexById
          indexByKey := loadIndex idx.indexByKey }) := by
    unfold innerUpdateIndex updateWith
    rw [if_neg (by rw [List.isEmpty_iff]; exact hrows)]
    cases hd : idx.dbHead with
    | none =>
      dsimp only
      rw [hfn]
      try rfl
    | some c =>
      obtain ⟨m, hm⟩ := Option.isSome_iff_exists.1 (hroot (by rw [hd]; rfl))
      dsimp only
      rw [hm]
      dsimp only
      rw [hfn]
      try rfl
  refine ⟨by rw [hmain], by rw [hmain], ?_, ?_, fun hs => ?_, ?_⟩
  · rw [hmain]
    exact loadIndex_cid idx.indexById
  · rw [hmain]
    exact loadIndex_cid idx.indexByKey
  · unfold missingMapFnMsg
    rw [if_neg hs]
  · unfold queryOp
    dsimp only
    rw [hmain]
    try rfl

/-- The C5 store: one put document, so changes are pending. -/
def dbMissingFn : Store := runOps [Op.put "a" 1]

/-- The C5 corner index: rehydrated without a live map function, with a prior
`dbHead` but no id-index content identifier to load a root from. -/
def idxMissingFnCorner : DbIndexState := { mapFnString := "mapCode", dbHead := some 0 }

/-- Claim C5, counterexample: on the corner state the update does fail, but
with the null-root access error of `this.indexById.root.getMany`, not with
the missing-map-function error, so the message does not echo the stored
source text `mapCode`. -/
theorem missing_mapFn_cex :
    (innerUpdateIndex dbMissingFn idxMissingFnCorner).1 = Except.error nullRootMsg ∧
    nullRootMsg ≠ missingMapFnMsg "mapCode" := by
  refine ⟨rfl, ?_⟩
  decide

/-- The C5 witness index: no live map function and no prior `dbHead`. -/
def idxMissingFnFresh : DbIndexState := { mapFnString := "mapCode" }

/-- Witness for the amended C5 at a concrete store and index. -/
theorem missing_mapFn_fatal_witness :
    (innerUpdateIndex dbMissingFn idxMissingFnFresh).1 =
      Except.error (missingMapFnMsg "mapCode") :=
  (missing_mapFn_fatal dbMissingFn idxMissingFnFresh {} (by decide) rfl (by decide)).1

/-! ## Claim C6: registration deduplicates by source text, live code wins -/

/-- Claim C6: when a second index with an already-registered source text is
registered, the instance holding a live map function wins: it stays (or
becomes) the registered instance, keeps its map function, and absorbs the
other instance's persisted `dbHead` and id-index/key-index root
references. -/
theorem register_live_fn_wins (reg : Registry) (inIdx existing : DbIndexState)
    (hex : regGet reg inIdx.mapFnString = some existing) :
    (existing.mapFn.isSome = true →
      regGet (registerWithDatabase inIdx reg) inIdx.mapFnString =
        some (mergeRefs existing inIdx) ∧
      (mergeRefs existing inIdx).mapFn = existing.mapFn ∧
      (mergeRefs existing inIdx).dbHead = inIdx.dbHead ∧
      (mergeRefs existing inIdx).indexById.cid = inIdx.indexById.cid ∧
      (mergeRefs existing inIdx).indexByKey.cid = inIdx.indexByKey.cid) ∧
    (existing.mapFn = none → inIdx.mapFn.isSome = true →
      regGet (registerWithDatabase inIdx reg) inIdx.mapFnString =
        some (mergeRefs inIdx existing) ∧
      (mergeRefs inIdx existing).mapFn = inIdx.mapFn ∧
      (mergeRefs inIdx existing).dbHead = existing.dbHead ∧
      (mergeRefs inIdx existing).indexById.cid = existing.indexById.cid ∧
      (mergeRefs inIdx existing).indexByKey.cid = existing.indexByKey.cid) := by
  constructor
  · intro hfn
    refine ⟨?_, rfl, rfl, rfl, rfl⟩
    unfold registerWithDatabase
    rw [hex]
    dsimp only
    rw [if_pos hfn]
    exact mapFind_mapSet_self reg _ _
  · intro hfn _
    refine ⟨?_, rfl, rfl, rfl, rfl⟩
    unfold registerWithDatabase
    rw [hex]
    dsimp only
    rw [if_neg (by rw [hfn]; intro hc; cases hc)]
    exact mapFind_mapSet_self reg _ _

/-- The map function held by the live C6 instance. -/
def mapFnC6 : MapFn := fun d => [(some d.2, some d.2)]

/-- The registered C6 instance holding a live map function. -/
def idxC6Live : DbIndexState :=
  { mapFn := some mapFnC6
    mapFnString := "mf"
    dbHead := some 3 }

/-- A rehydrated code-less C6 instance with the same source text and
persisted references. -/
def idxC6Rehydrated : DbIndexState :=
  { mapFnString := "mf"
    dbHead := some 7
    indexById := { cid := some [("a", ((1 : EncKey), "a"))] }
    indexByKey := { cid := some [(((1 : EncKey), "a"), (1 : RowVal))] } }

/-- Witness for C6: registering the code-less instance against a registry
holding the live one keeps the live instance, which absorbs the persisted
references of the rehydrated one. -/
theorem register_live_fn_wins_witness :
    regGet (registerWithDatabase idxC6Rehydrated [("mf", idxC6Live)]) "mf" =
      some (mergeRefs idxC6Live idxC6Rehydrated) :=
  ((register_live_fn_wins [("mf", idxC6Live)] idxC6Rehydrated idxC6Live rfl).1 rfl).1

end Fireproof
